import Mathlib

/-!
Verification of the security/command-execution core of the `terrygui`
repository (a GUI wrapper around the `terraform` CLI).

Strings are embedded as `List Char`.  Each definition below is a direct
translation of the corresponding Python function from the repository
sources (`terrygui/security/sanitizer.py`, `terrygui/security/secure_memory.py`,
`terrygui/core/terraform_runner.py`, `terrygui/core/workspace_manager.py`).
Python exceptions are embedded as `Except` values, the raised
`SecurityError` becoming an error constructor.
-/

namespace Terrygui

/-- Boolean test that `s` is a leading segment of `t`; embeds Python
`str.startswith` and the leading-segment test performed by `str.replace`. -/
def listPref (s t : List Char) : Bool :=
  match s, t with
  | [], _ => true
  | _ :: _, [] => false
  | a :: s, b :: t => a == b && listPref s t

/-- The string `s` occurs contiguously inside `t`; embeds the Python
substring test `s in t`. -/
def Occ (s t : List Char) : Prop := ∃ u v, t = u ++ s ++ v

/-- Executable form of `Occ`. -/
def occB (s : List Char) : List Char → Bool
  | [] => s.isEmpty
  | c :: t => listPref s (c :: t) || occB s t

/-- The literal replacement marker used by `OutputRedactor.redact`. -/
def marker : List Char := "[REDACTED]".toList

/-- Fuel-indexed worker for `replaceAll`.  The fuel is initialised to the
length of the scanned text and is always sufficient, because every
recursive call both consumes one unit of fuel and strictly shortens the
text; the fuel-exhaustion branch is therefore unreachable. -/
def replaceAllF (s m : List Char) : Nat → List Char → List Char
  | _, [] => []
  | 0, t => t
  | Nat.succ f, c :: t =>
    if listPref s (c :: t) then m ++ replaceAllF s m f (t.drop (s.length - 1))
    else c :: replaceAllF s m f t

/-- Embeds Python `text.replace(s, m)` for a non-empty pattern `s`:
scan left to right, replacing every non-overlapping occurrence of `s`
by `m` and resuming the scan after the replacement.  The repository only
ever calls `str.replace` with a non-empty pattern (empty sensitive
values are skipped), so the empty-pattern behaviour is irrelevant. -/
def replaceAll (s m t : List Char) : List Char :=
  replaceAllF s m t.length t

/-- One iteration of the loop body of `OutputRedactor.redact`: a falsy
(empty) sensitive value is skipped, otherwise every occurrence of it in
the accumulated text is replaced by the marker. -/
def redactStep (acc s : List Char) : List Char :=
  if s = [] then acc else replaceAll s marker acc

/-- Embeds `OutputRedactor.redact`: `sensitive_values` is the redactor's
registered list of secret strings, folded over the text in registration
order.  The leading emptiness guard mirrors `if not text: return text`. -/
def redact (secrets : List (List Char)) (text : List Char) : List Char :=
  if text = [] then text else secrets.foldl redactStep text

/-- Characters stripped by Python `str.strip()`: ASCII whitespace plus
the common one-byte Unicode whitespace code points.  (Multi-byte Unicode
space separators are not produced by the terraform CLI and are omitted.) -/
def pyIsSpace (c : Char) : Bool :=
  c == ' ' || c == '\t' || c == '\n' || c == '\r' || c == '\x0b' || c == '\x0c' ||
  c == '\x1c' || c == '\x1d' || c == '\x1e' || c == '\x1f' || c == '\x85' || c == '\xa0'

/-- Embeds Python `str.strip()` (no argument): remove leading and
trailing whitespace. -/
def pyStrip (l : List Char) : List Char :=
  ((l.dropWhile pyIsSpace).reverse.dropWhile pyIsSpace).reverse

/-- Embeds Python `str.lower()` on the ASCII strings this code base
compares against. -/
def pyLower (l : List Char) : List Char := l.map Char.toLower

/-- Accepts exactly the non-empty all-digit strings. -/
def digits1 (l : List Char) : Bool := !l.isEmpty && l.all Char.isDigit

/-- Models acceptance by the Python builtin `float(str)`: optional
surrounding whitespace and sign, then a decimal literal with optional
fraction and exponent, or one of `inf`, `infinity`, `nan`
(case-insensitive).  Underscore digit separators are not modelled; no
claim exercises the `number` branch. -/
def pyFloatAccepts (s : List Char) : Bool :=
  let t := pyStrip s
  let t1 := match t with
            | c :: r => if c = '+' || c = '-' then r else t
            | [] => t
  let low := pyLower t1
  if low = "inf".toList || low = "infinity".toList || low = "nan".toList then true
  else
    let mant := t1.takeWhile (fun c => !(c == 'e' || c == 'E'))
    let rest := t1.dropWhile (fun c => !(c == 'e' || c == 'E'))
    let ip := mant.takeWhile (fun c => c != '.')
    let fr := mant.dropWhile (fun c => c != '.')
    let mantOk := match fr with
      | [] => digits1 ip
      | _ :: frTail =>
        ip.all Char.isDigit && frTail.all Char.isDigit &&
          (!ip.isEmpty || !frTail.isEmpty)
    match rest with
    | [] => mantOk
    | _ :: er =>
      let er1 := match er with
                 | c :: r2 => if c = '+' || c = '-' then r2 else er
                 | [] => er
      mantOk && digits1 er1

/-- Insignificant-whitespace characters of the JSON grammar. -/
def jsonWsChar (c : Char) : Bool := c == ' ' || c == '\t' || c == '\n' || c == '\r'

def skipJsonWs (l : List Char) : List Char := l.dropWhile jsonWsChar

def hexDigit (c : Char) : Bool :=
  c.isDigit || ('a' ≤ c && c ≤ 'f') || ('A' ≤ c && c ≤ 'F')

/-- Consumes the remainder of a JSON string literal, starting just after
the opening quote; returns the input following the closing quote. -/
def jsonStringRest : List Char → Option (List Char)
  | [] => none
  | c :: r =>
    if c = '"' then some r
    else if c = '\\' then
      match r with
      | [] => none
      | e :: r2 =>
        if e = '"' || e = '\\' || e = '/' || e = 'b' || e = 'f' || e = 'n' ||
            e = 'r' || e = 't' then jsonStringRest r2
        else if e = 'u' then
          match r2 with
          | a :: b :: c2 :: d :: r3 =>
            if hexDigit a && hexDigit b && hexDigit c2 && hexDigit d then
              jsonStringRest r3
            else none
          | _ => none
        else none
    else if c.toNat < 32 then none
    else jsonStringRest r

/-- Consumes an optional JSON exponent part. -/
def jsonExpRest (l : List Char) : Option (List Char) :=
  match l with
  | e :: r =>
    if e = 'e' || e = 'E' then
      let r2 := match r with
                | c :: r3 => if c = '+' || c = '-' then r3 else r
                | [] => r
      match r2 with
      | c :: _ => if c.isDigit then some (r2.dropWhile Char.isDigit) else none
      | [] => none
    else some l
  | [] => some l

/-- Consumes an optional JSON fraction part followed by an optional
exponent part. -/
def jsonFracRest (l : List Char) : Option (List Char) :=
  match l with
  | '.' :: r =>
    (match r with
     | c :: _ => if c.isDigit then jsonExpRest (r.dropWhile Char.isDigit) else none
     | [] => none)
  | _ => jsonExpRest l

/-- Consumes a JSON number. -/
def jsonNumRest (l : List Char) : Option (List Char) :=
  let l1 := match l with
            | '-' :: r => r
            | _ => l
  match l1 with
  | c :: r =>
    if c = '0' then jsonFracRest r
    else if c.isDigit then jsonFracRest (r.dropWhile Char.isDigit)
    else none
  | [] => none

mutual

/-- Consumes one JSON value.  The fuel argument only bounds recursion
depth; it is initialised to one more than the input length, which always
suffices because at most two recursive steps occur per consumed input
character. -/
def jsonValRest : Nat → List Char → Option (List Char)
  | 0, _ => none
  | Nat.succ f, l =>
    let l1 := skipJsonWs l
    match l1 with
    | [] => none
    | '"' :: r => jsonStringRest r
    | '{' :: r => jsonObjRest f (skipJsonWs r) true
    | '[' :: r => jsonArrRest f (skipJsonWs r) true
    | _ =>
      if listPref "true".toList l1 then some (l1.drop 4)
      else if listPref "false".toList l1 then some (l1.drop 5)
      else if listPref "null".toList l1 then some (l1.drop 4)
      else if listPref "NaN".toList l1 then some (l1.drop 3)
      else if listPref "Infinity".toList l1 then some (l1.drop 8)
      else if listPref "-Infinity".toList l1 then some (l1.drop 9)
      else jsonNumRest l1

/-- Consumes the members of a JSON object after the opening brace. -/
def jsonObjRest : Nat → List Char → Bool → Option (List Char)
  | 0, _, _ => none
  | Nat.succ f, l, first =>
    match l with
    | '}' :: r => if first then some r else none
    | '"' :: r =>
      match jsonStringRest r with
      | none => none
      | some r2 =>
        match skipJsonWs r2 with
        | ':' :: r3 =>
          match jsonValRest f r3 with
          | none => none
          | some r4 =>
            match skipJsonWs r4 with
            | ',' :: r5 => jsonObjRest f (skipJsonWs r5) false
            | '}' :: r5 => some r5
            | _ => none
        | _ => none
    | _ => none

/-- Consumes the elements of a JSON array after the opening bracket. -/
def jsonArrRest : Nat → List Char → Bool → Option (List Char)
  | 0, _, _ => none
  | Nat.succ f, l, first =>
    match l, first with
    | ']' :: r, true => some r
    | _, _ =>
      match jsonValRest f l with
      | none => none
      | some r2 =>
        match skipJsonWs r2 with
        | ',' :: r3 => jsonArrRest f (skipJsonWs r3) false
        | ']' :: r3 => some r3
        | _ => none

end

/-- Models acceptance by Python `json.loads`: one JSON value (with the
Python extensions `NaN`, `Infinity`, `-Infinity`) followed only by
whitespace.  No claim exercises the `list`/`map`/`object` branch. -/
def jsonAccepts (s : List Char) : Bool :=
  match jsonValRest (s.length + 1) s with
  | some r => (skipJsonWs r).isEmpty
  | none => false

/-- Single error kind raised by the sanitizer (`SecurityError` in the
source); the constructors record which validation failed. -/
inductive SecErr where
  | emptyName
  | nameTooLong
  | invalidName
  | valueTooLong
  | invalidBool
  | invalidNumber
  | invalidJson
  | forbiddenChars
  | unsafeArg
  deriving DecidableEq

/-- Python values flowing into `sanitize_variable_value` in this code
base: `None`, booleans and strings. -/
inductive PyVal where
  | pynone
  | pybool (b : Bool)
  | pystr (s : List Char)
  deriving DecidableEq

/-- Embeds the Python `str(value)` conversion for the modelled values. -/
def pyStr : PyVal → List Char
  | .pynone => "None".toList
  | .pybool b => if b then "True".toList else "False".toList
  | .pystr s => s

/-- Full match of the character class of
`VARIABLE_NAME_PATTERN = ^[a-zA-Z_][a-zA-Z0-9_-]*$`. -/
def varNameFullMatch (l : List Char) : Bool :=
  match l with
  | [] => false
  | c :: rest =>
    (c.isAlpha || c == '_') && rest.all (fun d => d.isAlphanum || d == '_' || d == '-')

/-- Embeds `VARIABLE_NAME_PATTERN.match(name)` as used by the source.
Python `$` (without `re.MULTILINE`) matches at the end of the string and
also just before a newline that ends the string, so the pattern also
accepts a full match followed by one trailing newline. -/
def pyMatchVarName (l : List Char) : Bool :=
  varNameFullMatch l ||
    (match l.getLast? with
     | some c => c == '\n' && varNameFullMatch l.dropLast
     | none => false)

def MAX_VARIABLE_NAME_LENGTH : Nat := 255

def MAX_VARIABLE_VALUE_LENGTH : Nat := 4096

/-- Embeds `InputSanitizer.sanitize_variable_name`. -/
def sanitize_variable_name (name : List Char) : Except SecErr (List Char) :=
  if name = [] then .error .emptyName
  else if name.length > MAX_VARIABLE_NAME_LENGTH then .error .nameTooLong
  else if pyMatchVarName name then .ok name
  else .error .invalidName

/-- Embeds `BLOCKED_VALUE_CHARS = set(...)` of the source: the Python
literal denotes the nine characters semicolon, pipe, ampersand, dollar,
backtick, backslash, double quote, newline, carriage return. -/
def BLOCKED_VALUE_CHARS : List Char := [';', '|', '&', '$', '`', '\\', '"', '\n', '\r']

/-- Embeds `InputSanitizer.sanitize_variable_value`.  The branch for
`list`/`map`/`object` serialises non-string values with `json.dumps`,
which on the modelled values yields `true`/`false`/`null`. -/
def sanitize_variable_value (value : PyVal) (varType : List Char) : Except SecErr (List Char) :=
  match value with
  | .pynone => .ok []
  | _ =>
    let sv := pyStr value
    if sv.length > MAX_VARIABLE_VALUE_LENGTH then .error .valueTooLong
    else if varType = "bool".toList then
      match value with
      | .pybool b => .ok (if b then "true".toList else "false".toList)
      | _ =>
        if pyLower sv = "true".toList || pyLower sv = "false".toList ||
            pyLower sv = "1".toList || pyLower sv = "0".toList then
          .ok (if pyLower sv = "true".toList || pyLower sv = "1".toList
               then "true".toList else "false".toList)
        else .error .invalidBool
    else if varType = "number".toList then
      if pyFloatAccepts sv then .ok sv else .error .invalidNumber
    else if varType = "list".toList || varType = "map".toList ||
        varType = "object".toList then
      match value with
      | .pystr s => if jsonAccepts s then .ok s else .error .invalidJson
      | .pybool b => .ok (if b then "true".toList else "false".toList)
      | .pynone => .ok "null".toList
    else
      if sv.any (fun c => BLOCKED_VALUE_CHARS.contains c) then .error .forbiddenChars
      else .ok sv

/-- Embeds `InputSanitizer.is_safe_command_arg`. -/
def is_safe_command_arg (arg : List Char) : Bool :=
  if arg.contains '\x00' then false
  else if arg.length > 10000 then false
  else true

/-- Embeds the `CommandResult` dataclass of `terraform_runner.py`. -/
structure CommandResult where
  exit_code : Int
  stdout : List Char
  stderr : List Char
  success : Bool
  command : List Char
  deriving DecidableEq

/-- Embeds Python `line.rstrip("\n")`: remove every trailing newline
character. -/
def rstripNewlines (l : List Char) : List Char :=
  (l.reverse.dropWhile (fun c => c == '\n')).reverse

/-- Processing applied by `_execute` to each captured output line:
strip the trailing newline, then redact. -/
def processLine (secrets : List (List Char)) (l : List Char) : List Char :=
  redact secrets (rstripNewlines l)

/-- Abstraction of the operating-system interaction inside
`TerraformRunner._execute`: spawning the child either raises an
`OSError` (for example the binary does not exist), or the wait raises
`subprocess.TimeoutExpired` after some stdout lines were read, or the
process runs to completion with an exit code and two line streams. -/
inductive SpawnOutcome where
  | spawnError (msg : List Char)
  | timeout (stdoutLines : List (List Char))
  | finished (exitCode : Int) (stdoutLines stderrLines : List (List Char))

/-- Embeds `TerraformRunner._execute`.  The source wraps the process
interaction in `try ... except subprocess.TimeoutExpired`, so only the
timeout is converted into a `CommandResult`; an `OSError` raised by
`subprocess.Popen` has no handler and propagates, which the embedding
records as `.error`.  The `Bool` paired with the result records whether
`self._process.terminate()` was invoked. -/
def execute (secrets : List (List Char)) (operation : List Char)
    (outcome : SpawnOutcome) : Except (List Char) (CommandResult × Bool) :=
  match outcome with
  | .spawnError msg => .error msg
  | .timeout sd =>
    .ok (⟨-1, List.intercalate "\n".toList (sd.map (processLine secrets)),
          "Command timed out".toList, false, operation⟩, true)
  | .finished code sd se =>
    .ok (⟨code, List.intercalate "\n".toList (sd.map (processLine secrets)),
          List.intercalate "\n".toList (se.map (processLine secrets)),
          code == 0, operation⟩, false)

/-- Embeds `TerraformRunner._build_base_command`. -/
def build_base_command (binary projectPath operation : List Char) :
    Except SecErr (List (List Char)) :=
  let chdirArg := "-chdir=".toList ++ projectPath
  if is_safe_command_arg chdirArg then .ok [binary, chdirArg, operation]
  else .error .unsafeArg

/-- Embeds `var_types.get(name, "string")`. -/
def lookupVarType (varTypes : List (List Char × List Char)) (name : List Char) :
    List Char :=
  match varTypes.lookup name with
  | some t => t
  | none => "string".toList

/-- Embeds `TerraformRunner._add_variables`: the insertion-ordered dict
is embedded as an association list. -/
def add_variables (cmd : List (List Char))
    (vars : List (List Char × PyVal))
    (varTypes : List (List Char × List Char)) : Except SecErr (List (List Char)) :=
  match vars with
  | [] => .ok cmd
  | (name, value) :: rest =>
    match sanitize_variable_name name with
    | .error e => .error e
    | .ok _ =>
      match sanitize_variable_value value (lookupVarType varTypes name) with
      | .error e => .error e
      | .ok sv =>
        let arg := name ++ '=' :: sv
        if is_safe_command_arg arg then
          add_variables (cmd ++ ["-var".toList, arg]) rest varTypes
        else .error .unsafeArg

/-- Embeds the command construction of `TerraformRunner.plan` (the part
preceding `_execute`): base command, fixed flags, optional variables,
optional out file.  An error value is a raised `SecurityError`, and in
the source it prevents `_execute` from ever being called. -/
def plan (binary projectPath : List Char)
    (vars : List (List Char × PyVal))
    (varTypes : List (List Char × List Char))
    (outFile : Option (List Char)) : Except SecErr (List (List Char)) :=
  match build_base_command binary projectPath "plan".toList with
  | .error e => .error e
  | .ok base =>
    let cmd := base ++ ["-input=false".toList, "-no-color".toList]
    match (if vars = [] then .ok cmd
           else add_variables cmd vars varTypes : Except SecErr _) with
    | .error e => .error e
    | .ok cmd2 =>
      match outFile with
      | none => .ok cmd2
      | some f =>
        if f = [] then .ok cmd2
        else if is_safe_command_arg f then .ok (cmd2 ++ ["-out=".toList ++ f])
        else .error .unsafeArg

/-- Embeds the `WorkspaceInfo` dataclass of `workspace_manager.py`. -/
structure WorkspaceInfo where
  name : List Char
  is_current : Bool
  deriving DecidableEq

/-- Line-boundary characters of Python `str.splitlines`. -/
def pyLineBreak (c : Char) : Bool :=
  c == '\n' || c == '\r' || c == '\x0b' || c == '\x0c' || c == '\x1c' ||
  c == '\x1d' || c == '\x1e' || c == '\x85' || c == '\u2028' || c == '\u2029'

/-- Worker for `pySplitlines`; the accumulator holds the current line
reversed. -/
def pySplitlinesAux : List Char → List Char → List (List Char)
  | [], acc => if acc.isEmpty then [] else [acc.reverse]
  | '\r' :: '\n' :: rest, acc => acc.reverse :: pySplitlinesAux rest []
  | c :: rest, acc =>
    if pyLineBreak c then acc.reverse :: pySplitlinesAux rest []
    else pySplitlinesAux rest (c :: acc)

/-- Embeds Python `str.splitlines()`: split at every line boundary
(treating a carriage return followed by a newline as one boundary),
without a trailing empty line. -/
def pySplitlines (l : List Char) : List (List Char) := pySplitlinesAux l []

/-- Embeds the result processing of `WorkspaceManager.list_workspaces`,
as a function of the `(exit_code, stdout)` returned by `_run` for
`terraform workspace list`. -/
def list_workspaces (code : Int) (stdout : List Char) : List WorkspaceInfo :=
  if code ≠ 0 then [⟨"default".toList, true⟩]
  else
    let ws := (pySplitlines stdout).foldl (fun acc line =>
      let l := pyStrip line
      if l = [] then acc
      else if listPref "* ".toList l then acc ++ [⟨pyStrip (l.drop 2), true⟩]
      else acc ++ [⟨l, false⟩]) []
    if ws = [] then [⟨"default".toList, true⟩] else ws

/-- Stated from the specification wording, for comparison with
`list_workspaces`: a trimmed line starting with the two characters
`* ` yields a current workspace named by the trimmed remainder, any
other non-blank trimmed line yields a non-current workspace, and blank
lines are skipped. -/
def parseWorkspaceLineSpec (line : List Char) : Option WorkspaceInfo :=
  let l := pyStrip line
  if l = [] then none
  else if listPref "* ".toList l then some ⟨pyStrip (l.drop 2), true⟩
  else some ⟨l, false⟩

/-- Stated from the specification wording: parse every line, and if the
command failed or the parse yields no workspaces, synthesize a single
`default` workspace marked current. -/
def listWorkspacesSpec (code : Int) (stdout : List Char) : List WorkspaceInfo :=
  if code ≠ 0 then [⟨"default".toList, true⟩]
  else
    match (pySplitlines stdout).filterMap parseWorkspaceLineSpec with
    | [] => [⟨"default".toList, true⟩]
    | ws => ws

theorem listPref_iff (s t : List Char) : listPref s t = true ↔ ∃ r, t = s ++ r := by
  induction s generalizing t with
  | nil => simp [listPref]
  | cons a s ih =>
    cases t with
    | nil => simp [listPref]
    | cons b t =>
      simp only [listPref, Bool.and_eq_true, beq_iff_eq, ih]
      constructor
      · rintro ⟨rfl, r, rfl⟩
        exact ⟨r, rfl⟩
      · rintro ⟨r, h⟩
        rw [List.cons_append] at h
        cases h
        exact ⟨rfl, r, rfl⟩

theorem occ_cons_iff (s : List Char) (c : Char) (t : List Char) :
    Occ s (c :: t) ↔ (∃ r, c :: t = s ++ r) ∨ Occ s t := by
  constructor
  · rintro ⟨u, v, h⟩
    cases u with
    | nil => exact Or.inl ⟨v, by simpa using h⟩
    | cons a u =>
      rw [List.cons_append, List.cons_append] at h
      cases h
      exact Or.inr ⟨u, v, rfl⟩
  · rintro (⟨r, h⟩ | ⟨u, v, h⟩)
    · exact ⟨[], r, by simpa using h⟩
    · exact ⟨c :: u, v, by simp [h]⟩

theorem occ_nil_iff (s : List Char) : Occ s [] ↔ s = [] := by
  constructor
  · rintro ⟨u, v, h⟩
    rcases List.append_eq_nil.mp h.symm with ⟨h1, h2⟩
    rcases List.append_eq_nil.mp h1 with ⟨-, h3⟩
    exact h3
  · rintro rfl
    exact ⟨[], [], rfl⟩

theorem occB_iff (s t : List Char) : occB s t = true ↔ Occ s t := by
  induction t with
  | nil =>
    simp only [occB, List.isEmpty_iff, occ_nil_iff]
  | cons c t ih =>
    simp only [occB, Bool.or_eq_true, listPref_iff, ih, occ_cons_iff]

theorem occ_append_left (s l : List Char) {t : List Char} (h : Occ s t) :
    Occ s (l ++ t) := by
  obtain ⟨u, v, rfl⟩ := h
  exact ⟨l ++ u, v, by simp⟩

theorem occ_of_occ_drop (s : List Char) (n : Nat) {t : List Char}
    (h : Occ s (t.drop n)) : Occ s t := by
  have := occ_append_left s (t.take n) h
  rwa [List.take_append_drop] at this

theorem replaceAllF_congr (s m : List Char) :
    ∀ f g t, t.length ≤ f → t.length ≤ g →
      replaceAllF s m f t = replaceAllF s m g t := by
  intro f
  induction f with
  | zero =>
    intro g t hf _
    have : t = [] := List.length_eq_zero.mp (Nat.le_zero.mp hf)
    subst this
    cases g <;> rfl
  | succ f ih =>
    intro g t hf hg
    cases t with
    | nil => cases g <;> rfl
    | cons c t =>
      cases g with
      | zero => exact absurd hg (by simp)
      | succ g =>
        simp only [replaceAllF]
        by_cases hp : listPref s (c :: t) = true
        · rw [hp]
          simp only [if_true]
          have hlen : (t.drop (s.length - 1)).length ≤ t.length := by
            rw [List.length_drop]; omega
          rw [ih g (t.drop (s.length - 1))
            (Nat.le_trans hlen (Nat.lt_succ_iff.mp hf))
            (Nat.le_trans hlen (Nat.lt_succ_iff.mp hg))]
        · rw [Bool.not_eq_true] at hp
          rw [hp]
          simp only [Bool.false_eq_true, if_false]
          rw [ih g t (Nat.lt_succ_iff.mp hf) (Nat.lt_succ_iff.mp hg)]

theorem replaceAll_nil (s m : List Char) : replaceAll s m [] = [] := rfl

theorem replaceAll_cons (s m : List Char) (c : Char) (t : List Char) :
    replaceAll s m (c :: t) =
      if listPref s (c :: t) then m ++ replaceAll s m (t.drop (s.length - 1))
      else c :: replaceAll s m t := by
  show replaceAllF s m (t.length + 1) (c :: t) = _
  simp only [replaceAllF, replaceAll]
  by_cases hp : listPref s (c :: t) = true
  · rw [hp]
    simp only [if_true]
    rw [replaceAllF_congr s m t.length (t.drop (s.length - 1)).length
      (t.drop (s.length - 1)) (by rw [List.length_drop]; omega) (Nat.le_refl _)]
  · rw [Bool.not_eq_true] at hp
    rw [hp]
    simp only [Bool.false_eq_true, if_false]

theorem occ_of_concat_split {m R u s v : List Char}
    (h : m ++ R = u ++ s ++ v) (hs : s ≠ [])
    (hdisj : ∀ c ∈ s, c ∉ m) : Occ s R := by
  induction m generalizing u with
  | nil => exact ⟨u, v, by simpa using h⟩
  | cons a m ih =>
    cases u with
    | nil =>
      cases s with
      | nil => exact absurd rfl hs
      | cons b s =>
        simp only [List.nil_append, List.cons_append, List.cons.injEq] at h
        exact absurd (List.mem_cons_self a m) (h.1 ▸ hdisj b (List.mem_cons_self b s))
    | cons b u =>
      simp only [List.cons_append, List.cons.injEq] at h
      exact ih h.2 (fun c hc hm => hdisj c hc (List.mem_cons_of_mem a hm))

theorem pref_replaceAll_back (m : List Char) (hm : m ≠ []) (s : List Char) :
    ∀ n t, t.length ≤ n → ∀ u, u ≠ [] → (∀ c ∈ u, c ∉ m) →
      (∃ r, replaceAll s m t = u ++ r) → ∃ r, t = u ++ r := by
  intro n
  induction n with
  | zero =>
    intro t ht u hu _ hp
    have : t = [] := List.length_eq_zero.mp (Nat.le_zero.mp ht)
    subst this
    rw [replaceAll_nil] at hp
    obtain ⟨r, hr⟩ := hp
    rcases List.append_eq_nil.mp hr.symm with ⟨h1, -⟩
    exact absurd h1 hu
  | succ n ih =>
    intro t ht u hu hdisj hp
    cases t with
    | nil =>
      rw [replaceAll_nil] at hp
      obtain ⟨r, hr⟩ := hp
      rcases List.append_eq_nil.mp hr.symm with ⟨h1, -⟩
      exact absurd h1 hu
    | cons c t =>
      rw [replaceAll_cons] at hp
      by_cases hmatch : listPref s (c :: t) = true
      · rw [hmatch] at hp
        simp only [if_true] at hp
        obtain ⟨r, hr⟩ := hp
        cases u with
        | nil => exact absurd rfl hu
        | cons a u =>
          cases m with
          | nil => exact absurd rfl hm
          | cons b m =>
            rw [List.cons_append, List.cons_append] at hr
            have hab : b = a := (List.cons.injEq _ _ _ _).mp hr |>.1
            exact absurd (hab ▸ List.mem_cons_self b m)
              (hdisj a (List.mem_cons_self a u))
      · rw [Bool.not_eq_true] at hmatch
        rw [hmatch] at hp
        simp only [Bool.false_eq_true, if_false] at hp
        obtain ⟨r, hr⟩ := hp
        cases u with
        | nil => exact absurd rfl hu
        | cons a u =>
          rw [List.cons_append] at hr
          obtain ⟨hca, htail⟩ := (List.cons.injEq _ _ _ _).mp hr
          cases u with
          | nil => exact ⟨t, by rw [hca, List.cons_append, List.nil_append]⟩
          | cons b u =>
            obtain ⟨r2, hr2⟩ := ih t (Nat.lt_succ_iff.mp ht) (b :: u)
              (by simp) (fun x hx => hdisj x (List.mem_cons_of_mem a hx))
              ⟨r, htail⟩
            exact ⟨r2, by simp [hca, hr2]⟩

theorem occ_replaceAll_back (m : List Char) (hm : m ≠ []) (s : List Char) :
    ∀ n t, t.length ≤ n → ∀ u, u ≠ [] → (∀ c ∈ u, c ∉ m) →
      Occ u (replaceAll s m t) → Occ u t := by
  intro n
  induction n with
  | zero =>
    intro t ht u hu _ hocc
    have : t = [] := List.length_eq_zero.mp (Nat.le_zero.mp ht)
    subst this
    rw [replaceAll_nil] at hocc
    exact absurd (occ_nil_iff u |>.mp hocc) hu
  | succ n ih =>
    intro t ht u hu hdisj hocc
    cases t with
    | nil =>
      rw [replaceAll_nil] at hocc
      exact absurd (occ_nil_iff u |>.mp hocc) hu
    | cons c t =>
      rw [replaceAll_cons] at hocc
      by_cases hmatch : listPref s (c :: t) = true
      · rw [hmatch] at hocc
        simp only [if_true] at hocc
        obtain ⟨a, b, hab⟩ := hocc
        have hoccR : Occ u (replaceAll s m (t.drop (s.length - 1))) :=
          occ_of_concat_split hab hu hdisj
        have hlen : (t.drop (s.length - 1)).length ≤ n := by
          rw [List.length_drop]
          have := Nat.lt_succ_iff.mp ht
          omega
        have := ih (t.drop (s.length - 1)) hlen u hu hdisj hoccR
        exact (occ_cons_iff u c t).mpr (Or.inr (occ_of_occ_drop u _ this))
      · rw [Bool.not_eq_true] at hmatch
        rw [hmatch] at hocc
        simp only [Bool.false_eq_true, if_false] at hocc
        rcases (occ_cons_iff u c _).mp hocc with ⟨r, hr⟩ | hoccR
        · cases u with
          | nil => exact absurd rfl hu
          | cons a u =>
            rw [List.cons_append] at hr
            obtain ⟨hca, htail⟩ := (List.cons.injEq _ _ _ _).mp hr
            cases u with
            | nil => exact ⟨[], t, by rw [hca]; rfl⟩
            | cons b u' =>
              obtain ⟨r2, hr2⟩ := pref_replaceAll_back m hm s n t
                (Nat.lt_succ_iff.mp ht) (b :: u') (by simp)
                (fun x hx => hdisj x (List.mem_cons_of_mem a hx)) ⟨r, htail⟩
              exact ⟨[], r2, by rw [hca, hr2]; rfl⟩
        · exact (occ_cons_iff u c t).mpr
            (Or.inr (ih t (Nat.lt_succ_iff.mp ht) u hu hdisj hoccR))

theorem occ_self_replaceAll (s m : List Char) (hs : s ≠ []) (hm : m ≠ [])
    (hdisj : ∀ c ∈ s, c ∉ m) :
    ∀ n t, t.length ≤ n → ¬ Occ s (replaceAll s m t) := by
  intro n
  induction n with
  | zero =>
    intro t ht hocc
    have : t = [] := List.length_eq_zero.mp (Nat.le_zero.mp ht)
    subst this
    rw [replaceAll_nil] at hocc
    exact hs ((occ_nil_iff s).mp hocc)
  | succ n ih =>
    intro t ht hocc
    cases t with
    | nil =>
      rw [replaceAll_nil] at hocc
      exact hs ((occ_nil_iff s).mp hocc)
    | cons c t =>
      rw [replaceAll_cons] at hocc
      by_cases hmatch : listPref s (c :: t) = true
      · rw [hmatch] at hocc
        simp only [if_true] at hocc
        obtain ⟨a, b, hab⟩ := hocc
        have hoccR : Occ s (replaceAll s m (t.drop (s.length - 1))) :=
          occ_of_concat_split hab hs hdisj
        have hlen : (t.drop (s.length - 1)).length ≤ n := by
          rw [List.length_drop]
          have := Nat.lt_succ_iff.mp ht
          omega
        exact ih (t.drop (s.length - 1)) hlen hoccR
      · rw [Bool.not_eq_true] at hmatch
        rw [hmatch] at hocc
        simp only [Bool.false_eq_true, if_false] at hocc
        rcases (occ_cons_iff s c _).mp hocc with ⟨r, hr⟩ | hoccR
        · cases s with
          | nil => exact hs rfl
          | cons a s' =>
            rw [List.cons_append] at hr
            obtain ⟨hca, htail⟩ := (List.cons.injEq _ _ _ _).mp hr
            cases s' with
            | nil =>
              have : listPref (a :: ([] : List Char)) (c :: t) = true := by
                simp [listPref, hca]
              rw [hca] at hmatch
              simp [listPref] at hmatch
            | cons b s'' =>
              obtain ⟨r2, hr2⟩ := pref_replaceAll_back m hm (a :: b :: s'') n t
                (Nat.lt_succ_iff.mp ht) (b :: s'') (by simp)
                (fun x hx => hdisj x (List.mem_cons_of_mem a hx)) ⟨r, htail⟩
              have hfin : listPref s'' (s'' ++ r2) = true :=
                (listPref_iff _ _).mpr ⟨r2, rfl⟩
              have hcontr : listPref (a :: b :: s'') (c :: t) = true := by
                rw [hca, hr2]
                simp [listPref, hfin]
              rw [hcontr] at hmatch
              exact Bool.noConfusion hmatch
        · exact ih t (Nat.lt_succ_iff.mp ht) hoccR

theorem replaceAll_of_not_occ (s m : List Char) {t : List Char}
    (h : ¬ Occ s t) : replaceAll s m t = t := by
  induction t with
  | nil => exact replaceAll_nil s m
  | cons c t ih =>
    rw [replaceAll_cons]
    by_cases hmatch : listPref s (c :: t) = true
    · obtain ⟨r, hr⟩ := (listPref_iff _ _).mp hmatch
      exact absurd ⟨[], r, by simpa using hr⟩ h
    · rw [Bool.not_eq_true] at hmatch
      rw [hmatch]
      simp only [Bool.false_eq_true, if_false]
      rw [ih (fun hocc => h ((occ_cons_iff s c t).mpr (Or.inr hocc)))]

theorem marker_ne_nil : marker ≠ [] := by decide

theorem foldl_redactStep_nil (secrets : List (List Char)) :
    secrets.foldl redactStep [] = [] := by
  induction secrets with
  | nil => rfl
  | cons s rest ih =>
    rw [List.foldl_cons]
    have : redactStep [] s = [] := by
      unfold redactStep
      by_cases hs : s = []
      · rw [if_pos hs]
      · rw [if_neg hs, replaceAll_nil]
    rw [this, ih]

theorem redact_eq_foldl (secrets : List (List Char)) (text : List Char) :
    redact secrets text = secrets.foldl redactStep text := by
  unfold redact
  by_cases ht : text = []
  · rw [if_pos ht, ht, foldl_redactStep_nil]
  · rw [if_neg ht]

theorem occ_foldl_redact_back (a : List Char) (ha : a ≠ [])
    (hdisj : ∀ c ∈ a, c ∉ marker) (secrets : List (List Char)) :
    ∀ t, Occ a (secrets.foldl redactStep t) → Occ a t := by
  induction secrets with
  | nil => exact fun t h => h
  | cons s rest ih =>
    intro t h
    rw [List.foldl_cons] at h
    have hstep : Occ a (redactStep t s) → Occ a t := by
      unfold redactStep
      by_cases hs : s = []
      · rw [if_pos hs]; exact id
      · rw [if_neg hs]
        exact occ_replaceAll_back marker marker_ne_nil s t.length t
          (Nat.le_refl _) a ha hdisj
    exact hstep (ih (redactStep t s) h)

theorem redact_no_occ (secrets : List (List Char)) (text : List Char)
    (h : ∀ s ∈ secrets, s ≠ [] ∧ ∀ c ∈ s, c ∉ marker) :
    ∀ s ∈ secrets, ¬ Occ s (redact secrets text) := by
  rw [redact_eq_foldl]
  induction secrets generalizing text with
  | nil => intro s hs; exact absurd hs (List.not_mem_nil s)
  | cons a rest ih =>
    intro s hs
    rw [List.foldl_cons]
    rcases List.mem_cons.mp hs with rfl | hmem
    · obtain ⟨hne, hdisj⟩ := h s (List.mem_cons_self s rest)
      intro hocc
      have hback := occ_foldl_redact_back s hne hdisj rest (redactStep text s) hocc
      have : redactStep text s = replaceAll s marker text := by
        unfold redactStep; rw [if_neg hne]
      rw [this] at hback
      exact occ_self_replaceAll s marker hne marker_ne_nil hdisj
        text.length text (Nat.le_refl _) hback
    · exact ih (redactStep text a) (fun u hu => h u (List.mem_cons_of_mem a hu))
        s hmem

theorem foldl_redactStep_id (secrets : List (List Char)) (t : List Char)
    (h : ∀ s ∈ secrets, s = [] ∨ ¬ Occ s t) :
    secrets.foldl redactStep t = t := by
  induction secrets with
  | nil => rfl
  | cons a rest ih =>
    rw [List.foldl_cons]
    have hstep : redactStep t a = t := by
      unfold redactStep
      rcases h a (List.mem_cons_self a rest) with ha | ha
      · rw [if_pos ha]
      · by_cases he : a = []
        · rw [if_pos he]
        · rw [if_neg he]
          exact replaceAll_of_not_occ a marker ha
    rw [hstep]
    exact ih (fun s hs => h s (List.mem_cons_of_mem a hs))

theorem redact_idem_core (secrets : List (List Char)) (text : List Char)
    (h : ∀ s ∈ secrets, s ≠ [] ∧ ∀ c ∈ s, c ∉ marker) :
    redact secrets (redact secrets text) = redact secrets text := by
  have hno := redact_no_occ secrets text h
  rw [redact_eq_foldl secrets (redact secrets text)]
  exact foldl_redactStep_id secrets (redact secrets text)
    (fun s hs => Or.inr (hno s hs))

theorem contains_char_iff (l : List Char) (c : Char) :
    l.contains c = true ↔ c ∈ l := by
  induction l with
  | nil => simp [List.contains]
  | cons a l ih =>
    simp only [List.contains] at ih ⊢
    rw [List.elem_cons]
    by_cases h : c = a
    · subst h
      simp
    · have : (c == a) = false := beq_eq_false_iff_ne.mpr h
      rw [this]
      simp [ih, List.mem_cons, h]

/-- C6: `is_safe_command_arg` returns false exactly on the strings that
contain a null byte or are longer than 10,000 characters, and true on
every other string. -/
theorem c6_is_safe_command_arg_characterization (arg : List Char) :
    is_safe_command_arg arg = false ↔ ('\x00' ∈ arg ∨ arg.length > 10000) := by
  unfold is_safe_command_arg
  by_cases h1 : arg.contains '\x00' = true
  · rw [if_pos h1]
    simp [(contains_char_iff arg '\x00').mp h1]
  · rw [Bool.not_eq_true] at h1
    rw [h1]
    simp only [Bool.false_eq_true, if_false]
    have hmem : ¬ ('\x00' ∈ arg) := fun hm =>
      by rw [(contains_char_iff arg '\x00').mpr hm] at h1; exact Bool.noConfusion h1
    by_cases h2 : arg.length > 10000
    · rw [if_pos h2]
      simp [h2]
    · rw [if_neg h2]
      simp [hmem, h2]

/-- C10: for every type hint, a `None` value short-circuits
`sanitize_variable_value` to the empty string, bypassing the
type-specific validation and the blocked-character check. -/
theorem c10_none_value_bypasses_validation (varType : List Char) :
    sanitize_variable_value .pynone varType = .ok [] := rfl

/-- C2: when spawning the child process raises an `OSError`, `_execute`
propagates the exception instead of returning a failure
`CommandResult`, because its `try` block only handles
`subprocess.TimeoutExpired`. -/
theorem c2_spawn_error_propagates (secrets : List (List Char))
    (operation msg : List Char) :
    execute secrets operation (.spawnError msg) = .error msg := rfl

/-- C8: on timeout, `_execute` terminates the child process and returns
a result with exit code `-1`, stderr `Command timed out` and
`success = false`. -/
theorem c8_timeout_result (secrets : List (List Char)) (operation : List Char)
    (sd : List (List Char)) :
    ∃ r : CommandResult,
      execute secrets operation (.timeout sd) = .ok (r, true)
      ∧ r.exit_code = -1 ∧ r.stderr = "Command timed out".toList
      ∧ r.success = false ∧ r.command = operation :=
  ⟨_, rfl, rfl, rfl, rfl, rfl⟩

/-- C1 counterexample: with the single registered secret `ED` and the
text `ED` (the secret concatenated with empty filler), the redacted
output is the marker `[REDACTED]`, which contains the secret `ED` as a
substring — so redaction does not guarantee the absence of every
registered secret. -/
theorem c1_redact_contains_secret_counterexample :
    redact ["ED".toList] "ED".toList = "[REDACTED]".toList
    ∧ Occ "ED".toList (redact ["ED".toList] "ED".toList) :=
  ⟨by decide, ⟨"[R".toList, "ACTED]".toList, by decide⟩⟩

/-- C1 amended: for every set of registered secrets each of which is
non-empty (as the registration path guarantees) and shares no character
with the marker `[REDACTED]`, the redacted text contains none of the
secrets as a substring, for arbitrary text. -/
theorem c1_redact_removes_disjoint_secrets (secrets : List (List Char))
    (text : List Char)
    (h : ∀ s ∈ secrets, s ≠ [] ∧ ∀ c ∈ s, c ∉ marker) :
    ∀ s ∈ secrets, ¬ Occ s (redact secrets text) :=
  redact_no_occ secrets text h

/-- C1 witness: the amended theorem applied to the secrets `pw`, `key`
and a text concatenating them with filler. -/
theorem c1_redact_removes_disjoint_secrets_witness :
    (∀ s ∈ ["pw".toList, "key".toList], s ≠ [] ∧ ∀ c ∈ s, c ∉ marker)
    ∧ (∀ s ∈ ["pw".toList, "key".toList],
        ¬ Occ s (redact ["pw".toList, "key".toList] "xxpwyykeyzz".toList)) :=
  ⟨by decide,
   c1_redact_removes_disjoint_secrets ["pw".toList, "key".toList]
     "xxpwyykeyzz".toList (by decide)⟩

/-- C4 counterexample: with the single registered secret `ED` and the
text `xEDy`, one redaction yields `x[REDACTED]y` and a second redaction
rewrites the `ED` inside the marker, so redaction is not idempotent. -/
theorem c4_redact_not_idempotent_counterexample :
    redact ["ED".toList] (redact ["ED".toList] "xEDy".toList)
      ≠ redact ["ED".toList] "xEDy".toList := by decide

/-- C4 amended: redaction is idempotent whenever every registered secret
is non-empty and shares no character with the marker `[REDACTED]`. -/
theorem c4_redact_idempotent_for_disjoint_secrets (secrets : List (List Char))
    (text : List Char)
    (h : ∀ s ∈ secrets, s ≠ [] ∧ ∀ c ∈ s, c ∉ marker) :
    redact secrets (redact secrets text) = redact secrets text :=
  redact_idem_core secrets text h

/-- C4 witness: the amended theorem applied to the secret `tok` and the
text `atokb`. -/
theorem c4_redact_idempotent_for_disjoint_secrets_witness :
    (∀ s ∈ ["tok".toList], s ≠ [] ∧ ∀ c ∈ s, c ∉ marker)
    ∧ redact ["tok".toList] (redact ["tok".toList] "atokb".toList)
        = redact ["tok".toList] "atokb".toList :=
  ⟨by decide,
   c4_redact_idempotent_for_disjoint_secrets ["tok".toList] "atokb".toList
     (by decide)⟩

theorem sanitize_string_branch (v : List Char)
    (h : ¬ v.length > MAX_VARIABLE_VALUE_LENGTH) :
    sanitize_variable_value (.pystr v) "string".toList =
      if v.any (fun c => BLOCKED_VALUE_CHARS.contains c) then .error .forbiddenChars
      else .ok v := by
  unfold sanitize_variable_value
  dsimp only [pyStr]
  rw [if_neg h]
  rfl

/-- C3 counterexample: the one-character string holding a single
backslash is free of the eight characters listed by the claim and is
short enough, yet `sanitize_variable_value` rejects it, because the
source's blocked set also contains the backslash. -/
theorem c3_backslash_counterexample :
    "\\".toList.length ≤ 4096
    ∧ (∀ c ∈ "\\".toList, c ∉ [';', '|', '&', '$', '`', '"', '\n', '\r'])
    ∧ sanitize_variable_value (.pystr "\\".toList) "string".toList
        = .error .forbiddenChars :=
  ⟨by decide, by decide, rfl⟩

/-- C3 amended: for every string of length at most 4096,
`sanitize_variable_value(v, "string")` fails exactly when `v` contains a
character of the blocked set of nine characters — semicolon, pipe,
ampersand, dollar, backtick, backslash, double quote, newline, carriage
return — and returns `v` unchanged when `v` is free of them. -/
theorem c3_string_value_sanitization (v : List Char) (hlen : v.length ≤ 4096) :
    ((∃ c ∈ v, c ∈ BLOCKED_VALUE_CHARS) →
      sanitize_variable_value (.pystr v) "string".toList = .error .forbiddenChars)
    ∧ ((∀ c ∈ v, c ∉ BLOCKED_VALUE_CHARS) →
      sanitize_variable_value (.pystr v) "string".toList = .ok v) := by
  have hbr := sanitize_string_branch v (by unfold MAX_VARIABLE_VALUE_LENGTH; omega)
  constructor
  · rintro ⟨c, hc, hcB⟩
    rw [hbr, if_pos]
    rw [List.any_eq_true]
    exact ⟨c, hc, (contains_char_iff _ c).mpr hcB⟩
  · intro hfree
    rw [hbr, if_neg]
    rw [List.any_eq_true]
    rintro ⟨c, hc, hcB⟩
    exact hfree c hc ((contains_char_iff _ c).mp hcB)

/-- C3 witness: the amended theorem applied to the string `a;b`, whose
semicolon is in the blocked set. -/
theorem c3_string_value_sanitization_witness :
    "a;b".toList.length ≤ 4096
    ∧ (';' ∈ "a;b".toList ∧ ';' ∈ BLOCKED_VALUE_CHARS)
    ∧ sanitize_variable_value (.pystr "a;b".toList) "string".toList
        = .error .forbiddenChars :=
  ⟨by decide, ⟨by decide, by decide⟩,
   (c3_string_value_sanitization "a;b".toList (by decide)).1
     ⟨';', by decide, by decide⟩⟩

/-- C5: the name `a` followed by a newline does not match the documented
pattern `^[a-zA-Z_][a-zA-Z0-9_-]*$` as a full match, yet
`sanitize_variable_name` returns it unchanged, because Python `re`'s `$`
also matches just before a trailing newline — the code accepts a name
the claim requires it to reject. -/
theorem c5_trailing_newline_name_accepted :
    sanitize_variable_name "a\n".toList = .ok "a\n".toList
    ∧ varNameFullMatch "a\n".toList = false
    ∧ '\n' ∈ "a\n".toList :=
  ⟨rfl, rfl, by decide⟩

theorem add_variables_error_of_bad_pair :
    ∀ (vars : List (List Char × PyVal)) (varTypes : List (List Char × List Char))
      (cmd : List (List Char)),
      (∃ n v, (n, v) ∈ vars ∧
        ((∃ e, sanitize_variable_name n = .error e) ∨
         (∃ e, sanitize_variable_value v (lookupVarType varTypes n) = .error e))) →
      ∃ e, add_variables cmd vars varTypes = .error e := by
  intro vars
  induction vars with
  | nil =>
    rintro varTypes cmd ⟨n, v, hnv, -⟩
    exact absurd hnv (List.not_mem_nil (n, v))
  | cons pr rest ih =>
    rintro varTypes cmd hex
    obtain ⟨n, v⟩ := pr
    cases hname : sanitize_variable_name n with
    | error e =>
      refine ⟨e, ?_⟩
      simp only [add_variables, hname]
    | ok w =>
      cases hval : sanitize_variable_value v (lookupVarType varTypes n) with
      | error e =>
        refine ⟨e, ?_⟩
        simp only [add_variables, hname, hval]
      | ok sv =>
        by_cases hsafe : is_safe_command_arg (n ++ '=' :: sv) = true
        · obtain ⟨n2, v2, hnv, hbad⟩ := hex
          rcases List.mem_cons.mp hnv with heq | hmem
          · rw [Prod.mk.injEq] at heq
            obtain ⟨rfl, rfl⟩ := heq
            rcases hbad with ⟨e, he⟩ | ⟨e, he⟩
            · rw [hname] at he
              exact Except.noConfusion he
            · rw [hval] at he
              exact Except.noConfusion he
          · obtain ⟨e, he⟩ := ih varTypes
              (cmd ++ ["-var".toList, n ++ '=' :: sv]) ⟨n2, v2, hmem, hbad⟩
            refine ⟨e, ?_⟩
            simp only [add_variables, hname, hval, hsafe, if_true]
            exact he
        · refine ⟨.unsafeArg, ?_⟩
          rw [Bool.not_eq_true] at hsafe
          simp only [add_variables, hname, hval, hsafe, Bool.false_eq_true, if_false]

/-- C7: building a `plan` command for the variables
`region = us-east-1` yields exactly the argument vector
`[binary, -chdir=path, plan, -input=false, -no-color, -var,
region=us-east-1]` (with the contiguous `-var` pair); and whenever the
sanitization of any variable name or value fails, the whole construction
returns the raised error, so no command vector is ever produced for
`_execute` to spawn. -/
theorem c7_plan_command_structure (binary projectPath : List Char)
    (h : is_safe_command_arg ("-chdir=".toList ++ projectPath) = true) :
    (plan binary projectPath [("region".toList, .pystr "us-east-1".toList)] [] none
      = .ok [binary, "-chdir=".toList ++ projectPath, "plan".toList,
             "-input=false".toList, "-no-color".toList, "-var".toList,
             "region=us-east-1".toList])
    ∧ (∀ (vars : List (List Char × PyVal)) (varTypes : List (List Char × List Char)),
        (∃ n v, (n, v) ∈ vars ∧
          ((∃ e, sanitize_variable_name n = .error e) ∨
           (∃ e, sanitize_variable_value v (lookupVarType varTypes n) = .error e))) →
        ∃ e, plan binary projectPath vars varTypes none = .error e) := by
  constructor
  · unfold plan build_base_command
    dsimp only
    rw [if_pos h]
    rfl
  · intro vars varTypes hex
    have hne : vars ≠ [] := by
      rintro rfl
      obtain ⟨n, v, hnv, -⟩ := hex
      exact absurd hnv (List.not_mem_nil (n, v))
    obtain ⟨e, he⟩ := add_variables_error_of_bad_pair vars varTypes
      ([binary, "-chdir=".toList ++ projectPath, "plan".toList] ++
        ["-input=false".toList, "-no-color".toList]) hex
    refine ⟨e, ?_⟩
    unfold plan build_base_command
    dsimp only
    rw [if_pos h]
    dsimp only
    rw [if_neg hne]
    rw [he]

/-- C7 witness: the theorem applied to the binary `terraform` and the
project path `/home/user/proj`. -/
theorem c7_plan_command_structure_witness :
    is_safe_command_arg ("-chdir=".toList ++ "/home/user/proj".toList) = true
    ∧ plan "terraform".toList "/home/user/proj".toList
        [("region".toList, .pystr "us-east-1".toList)] [] none
      = .ok ["terraform".toList, "-chdir=".toList ++ "/home/user/proj".toList,
             "plan".toList, "-input=false".toList, "-no-color".toList,
             "-var".toList, "region=us-east-1".toList] :=
  ⟨by decide,
   (c7_plan_command_structure "terraform".toList "/home/user/proj".toList
     (by decide)).1⟩

theorem workspace_foldl_filterMap :
    ∀ (lines : List (List Char)) (acc : List WorkspaceInfo),
      lines.foldl (fun acc line =>
        let l := pyStrip line
        if l = [] then acc
        else if listPref "* ".toList l then acc ++ [⟨pyStrip (l.drop 2), true⟩]
        else acc ++ [⟨l, false⟩]) acc
      = acc ++ lines.filterMap parseWorkspaceLineSpec := by
  intro lines
  induction lines with
  | nil => intro acc; simp
  | cons x xs ih =>
    intro acc
    rw [List.foldl_cons, ih, List.filterMap_cons]
    unfold parseWorkspaceLineSpec
    dsimp only
    split_ifs <;> simp

/-- C9: the result processing of `list_workspaces` coincides, for every
exit code and stdout text, with the line-wise description of the spec —
trimmed lines starting with `* ` become the current workspace named by
the trimmed remainder, other non-blank lines become non-current
workspaces, blank lines are skipped, and a failed command or an empty
parse yields the single current `default` workspace; in particular the
spec scenario parses as stated. -/
theorem c9_list_workspaces_matches_spec :
    (∀ (code : Int) (stdout : List Char),
      list_workspaces code stdout = listWorkspacesSpec code stdout)
    ∧ list_workspaces 0 "  default\n* staging\n".toList
        = [⟨"default".toList, false⟩, ⟨"staging".toList, true⟩] := by
  constructor
  · intro code stdout
    unfold list_workspaces listWorkspacesSpec
    by_cases hc : code ≠ 0
    · rw [if_pos hc, if_pos hc]
    · rw [if_neg hc, if_neg hc]
      dsimp only
      rw [workspace_foldl_filterMap (pySplitlines stdout) []]
      rw [List.nil_append]
      cases hws : (pySplitlines stdout).filterMap parseWorkspaceLineSpec <;> simp
  · decide

end Terrygui
